import Mathlib

/-!
Shallow embedding of the beancount-bot message compiler (`src/bot.py`) and the
auto-balance scheduler (`src/auto_balance.py`).

Conventions of the embedding:
* Text (Python `str`) is modeled as `List Char`.
* Python `float` / `Decimal` arithmetic is modeled over exact rationals `ℚ`;
  binary-float rounding is NOT modeled (`float('70368744177664.07')` is
  really `70368744177664.0625` in the program, while the model keeps the
  exact decimal value).  Every concrete input used below only involves
  values on which Python's binary floating point is exact (e.g. 0.125, 0.25,
  4.5, small integers), so the concrete computations agree with the Python
  program character for character; and no theorem below that quantifies over
  all inputs relies on the parsed values being exact — the one balance
  theorem rests solely on the symmetry `quantize(-x) = -quantize(x)`, which
  holds for whatever value `x` the program computes.
* `Decimal.quantize(...)` uses Python's default rounding ROUND_HALF_EVEN,
  embedded as `quantizeHalfEven` below.
* Character classes (`\d`, `[A-Za-z]`) are modeled over ASCII, matching the
  intent of the regexes for the inputs of interest.
-/

deriving instance DecidableEq for Except

attribute [local semireducible] Rat.mul Rat.inv Rat.add Rat.sub

namespace BeanBot

/-- Python `str.strip()` default whitespace characters. -/
def pyWS (c : Char) : Bool :=
  c = ' ' || c = '\t' || c = '\n' || c = '\r' || c = '\x0b' || c = '\x0c'

/-- Drop leading whitespace (the left half of Python `str.strip`). -/
def dropLeadingWS (l : List Char) : List Char := l.dropWhile pyWS

/-- Drop trailing whitespace (the right half of Python `str.strip`). -/
def dropTrailingWS (l : List Char) : List Char :=
  (l.reverse.dropWhile pyWS).reverse

/-- Python `str.strip()`. -/
def stripL (l : List Char) : List Char := dropTrailingWS (dropLeadingWS l)

/-- Python `str.startswith`. -/
def listStartsWith : List Char → List Char → Bool
  | [], _ => true
  | _ :: _, [] => false
  | p :: ps, c :: cs => p = c && listStartsWith ps cs

/-- Python `str.endswith`. -/
def listEndsWith (l suf : List Char) : Bool :=
  listStartsWith suf.reverse l.reverse

/-- Split a text into its `\n`-separated lines (newline characters removed).
Iterating a Python file yields the same lines up to a possibly extra final
empty piece, which is irrelevant to the prefix scans performed on them. -/
def splitNl : List Char → List (List Char)
  | [] => [[]]
  | c :: rest =>
    let ls := splitNl rest
    if c = '\n' then [] :: ls
    else
      match ls with
      | [] => [[c]]
      | h :: t => (c :: h) :: t

/-- Python `' '.join(tokens)`. -/
def joinSp : List (List Char) → List Char
  | [] => []
  | [t] => t
  | t :: ts => t ++ ' ' :: joinSp ts

/-- Fuel-based worker for `splitWS`; the fuel only needs to cover the length
of the list, one unit per consumed character run. -/
def splitWSCore : Nat → List Char → List (List Char)
  | 0, _ => []
  | fuel + 1, l =>
    match l with
    | [] => []
    | c :: rest =>
      if pyWS c then splitWSCore fuel rest
      else
        (c :: rest.takeWhile (fun d => !pyWS d)) ::
          splitWSCore fuel (rest.dropWhile (fun d => !pyWS d))

/-- Python `str.split()` (split on whitespace runs, dropping empty pieces). -/
def splitWS (l : List Char) : List (List Char) := splitWSCore l.length l

/-- ASCII decimal digit test, the `\d` class of the amount regex. -/
def isDigitCh (c : Char) : Bool := '0' ≤ c && c ≤ '9'

/-- ASCII letter test, the `[A-Za-z]` class of the amount regex. -/
def isAlphaCh (c : Char) : Bool := ('A' ≤ c && c ≤ 'Z') || ('a' ≤ c && c ≤ 'z')

/-- `AMOUNT_TOKEN_PATTERN = ^([+-]?(?:\d+(?:\.\d+)?|\.\d+))([A-Za-z]*)$`,
bot.py line 42, returning the two capture groups on success.  Because the
digit, dot, and letter character classes are pairwise disjoint, the greedy
backtracking match of the regex is equivalent to this deterministic scan. -/
def parseAmountToken (s : List Char) : Option (List Char × List Char) :=
  let signRest : List Char × List Char :=
    match s with
    | c :: cs => if c = '+' || c = '-' then ([c], cs) else ([], s)
    | [] => ([], [])
  let sign := signRest.1
  let rest := signRest.2
  let ds := rest.takeWhile isDigitCh
  let afterDs := rest.drop ds.length
  let numRest : Option (List Char × List Char) :=
    if ds.isEmpty then
      match afterDs with
      | '.' :: r =>
        let fs := r.takeWhile isDigitCh
        if fs.isEmpty then none else some ('.' :: fs, r.drop fs.length)
      | _ => none
    else
      match afterDs with
      | '.' :: r =>
        let fs := r.takeWhile isDigitCh
        if fs.isEmpty then some (ds, afterDs) else some (ds ++ '.' :: fs, r.drop fs.length)
      | _ => some (ds, afterDs)
  match numRest with
  | none => none
  | some (num, rem) =>
    if rem.all isAlphaCh then some (sign ++ num, rem) else none

/-- Numeric value of a list of ASCII digits. -/
def digitsVal (l : List Char) : Nat :=
  l.foldl (fun a c => 10 * a + (c.toNat - '0'.toNat)) 0

/-- Exact rational value of an unsigned decimal literal `digits[.digits]`. -/
def decimalToRatNN (s : List Char) : ℚ :=
  let ds := s.takeWhile isDigitCh
  let rest := s.drop ds.length
  match rest with
  | '.' :: fr => (digitsVal ds : ℚ) + (digitsVal fr : ℚ) / ((10 : ℚ) ^ fr.length)
  | _ => (digitsVal ds : ℚ)

/-- Exact rational value of a signed decimal literal; this models Python's
`float(...)` applied to a matched amount group.  Python floats are binary and
round the literal to 53 bits of precision; this embedding keeps the exact
decimal value instead, so it agrees with the program only on
binary-representable values (every concrete value in the theorems below is
one), and universal theorems must not rely on the parsed values being exact
— the balance theorem below does not: it uses only the negation symmetry of
quantization, which is insensitive to which value was parsed. -/
def decimalToRat (s : List Char) : ℚ :=
  match s with
  | '-' :: r => -(decimalToRatNN r)
  | '+' :: r => decimalToRatNN r
  | _ => decimalToRatNN s

/-- Round a rational to an integer with Python `Decimal`'s default
ROUND_HALF_EVEN rule. -/
def roundHalfEven (x : ℚ) : ℤ :=
  let f : ℤ := Rat.floor x
  let r : ℚ := x - (f : ℚ)
  if r < 1 / 2 then f
  else if 1 / 2 < r then f + 1
  else if f % 2 = 0 then f else f + 1

/-- `Decimal(x).quantize(Decimal(10 ** -p))` with default rounding: round to
`p` decimal places, half to even. -/
def quantizeHalfEven (p : Nat) (x : ℚ) : ℚ :=
  ((roundHalfEven (x * (10 : ℚ) ^ p) : ℚ)) / ((10 : ℚ) ^ p)

/-- Decimal digits of a natural number, most significant first. -/
def natCharsCore : Nat → Nat → List Char → List Char
  | 0, _, acc => acc
  | fuel + 1, n, acc =>
    if n = 0 then acc
    else natCharsCore fuel (n / 10) (Nat.digitChar (n % 10) :: acc)

/-- Decimal rendering of a natural number (`"0"` for zero). -/
def natChars (n : Nat) : List Char :=
  if n = 0 then ['0'] else natCharsCore (n + 1) n []

/-- Python `format(d, 'f')` for a `Decimal` whose exponent is `-p` (the shape
produced by `quantize`): sign, integer digits, and exactly `p` fractional
digits.  (`ℚ` cannot represent `Decimal`'s negative zero; no claim below
depends on that corner.) -/
def renderFixed (p : Nat) (x : ℚ) : List Char :=
  let n : ℤ := Rat.floor (x * (10 : ℚ) ^ p)
  let a : Nat := n.natAbs
  (if n < 0 then ['-'] else []) ++
    natChars (a / 10 ^ p) ++
    (if p = 0 then [] else '.' :: List.leftpad p '0' (natChars (a % 10 ^ p)))

/-- Python `str.upper()` (ASCII). -/
def toUpperL (l : List Char) : List Char := l.map Char.toUpper

/-- Python `str.lower()` (ASCII). -/
def toLowerL (l : List Char) : List Char := l.map Char.toLower

/-- `parse_amount_currency` (bot.py lines 537-558), parameterised by the
configured default currency `CURRENCY`.  Returns `(amount_group, currency)`
where the currency is the second capture group if non-empty, else the default,
in either case uppercased (`currency.upper()` in the source). -/
def parse_amount_currency (defCur : List Char) (s : List Char) :
    Option (List Char × List Char) :=
  match parseAmountToken s with
  | none => none
  | some (amount, code) =>
    some (amount, toUpperL (if code.isEmpty then defCur else code))

/-- Worker for `get_leg_num`: the Python `while` loop
`while 2 * n + 1 < len(data) - 1 and AMOUNT_TOKEN_PATTERN.match(data[2*n+1])`,
unrolled on fuel (the list length always suffices). -/
def legScanAux (toks : List (List Char)) : Nat → Nat → Nat
  | 0, n => n
  | fuel + 1, n =>
    if 2 * n + 1 < toks.length - 1 &&
        (parseAmountToken (toks.getD (2 * n + 1) [])).isSome then
      legScanAux toks fuel (n + 1)
    else n

/-- `get_leg_num` (bot.py lines 390-408). -/
def get_leg_num (toks : List (List Char)) : Nat := legScanAux toks toks.length 0

/-- A compiled leg: `(account_fragment, signed_amount, currency)`. -/
abbrev Leg := List Char × ℚ × List Char

/-- Failure modes of `parse_message`: the explicit
`raise ValueError('Invalid amount format')` in the leg loop, and the implicit
`IndexError` when `data[2 * leg_num]` is out of range. -/
inductive ParseErr where
  | invalidAmount : ParseErr
  | indexError : ParseErr
deriving DecidableEq, Repr

/-- The leg loop of `parse_message` (bot.py lines 587-595) run for `n`
iterations: accumulates the legs (source account, negated parsed magnitude,
currency), the running `sum_amounts`, and the current `currency` variable
(initialised to the default currency before the loop).  `sum_amounts` is
accumulated with exact `ℚ` addition where the source adds floats; with two
or more source legs the program's float sum can differ from the exact sum
(rounding near `2 ^ 46` even for two-decimal amounts), which is why the
balance theorem below is stated only for at most one source leg, where the
sum is a single parsed value and no rounding of a sum occurs. -/
def legLoop (defCur : List Char) (toks : List (List Char)) :
    Nat → Except ParseErr (List Leg × ℚ × List Char)
  | 0 => Except.ok ([], 0, defCur)
  | n + 1 =>
    match legLoop defCur toks n with
    | Except.error e => Except.error e
    | Except.ok (legs, s, _) =>
      match parse_amount_currency defCur (toks.getD (2 * n + 1) []) with
      | none => Except.error ParseErr.invalidAmount
      | some (amount, cur) =>
        let v := decimalToRat amount
        Except.ok (legs ++ [(toks.getD (2 * n) [], -v, cur)], s + v, cur)

/-- `parse_message` (bot.py lines 561-600) over an already-tokenized message:
run the leg loop for `get_leg_num` legs, then append the terminal leg
`(data[2 * leg_num], sum_amounts, currency)` and join the remaining tokens
into the note. -/
def parse_message_toks (defCur : List Char) (toks : List (List Char)) :
    Except ParseErr (List Leg × List Char) :=
  let n := get_leg_num toks
  match legLoop defCur toks n with
  | Except.error e => Except.error e
  | Except.ok (legs, s, cur) =>
    if 2 * n < toks.length then
      Except.ok (legs ++ [(toks.getD (2 * n) [], s, cur)], joinSp (toks.drop (2 * n + 1)))
    else Except.error ParseErr.indexError

/-- `parse_message` on the raw message text (`msg.split()` first). -/
def parse_message (defCur : List Char) (msg : List Char) :
    Except ParseErr (List Leg × List Char) :=
  parse_message_toks defCur (splitWS msg)

/-- Remainder of `txt` after the leftmost occurrence of `pat`, if any
(fuel-based scan). -/
def afterSubCore (pat : List Char) : Nat → List Char → Option (List Char)
  | 0, txt => if listStartsWith pat txt then some (txt.drop pat.length) else none
  | fuel + 1, txt =>
    if listStartsWith pat txt then some (txt.drop pat.length)
    else
      match txt with
      | [] => none
      | _ :: rest => afterSubCore pat fuel rest

/-- Remainder of `txt` after the leftmost occurrence of `pat`. -/
def afterSub (pat txt : List Char) : Option (List Char) :=
  afterSubCore pat txt.length txt

/-- Fuel-based worker for `splitColon`. -/
def splitColonCore : Nat → List Char → List (List Char)
  | 0, l => [l]
  | fuel + 1, l =>
    let seg := l.takeWhile (fun c => !(c = ':'))
    match l.drop seg.length with
    | [] => [seg]
    | _ :: rest => seg :: splitColonCore fuel rest

/-- Split a fragment on `':'`. -/
def splitColon (l : List Char) : List (List Char) :=
  splitColonCore l.length l

/-- Matcher for the `get_account` regex
`'^.*' + re.sub(':', '.*:.*', base) + '.*'` with `re.IGNORECASE`
(bot.py line 425): the colon-separated segments of `base` must occur in the
account, in order, with a `':'` somewhere between consecutive segments;
matching is case-insensitive and the fragment's characters are taken
literally.  For this `.*`-chain pattern shape, leftmost sequential search is
equivalent to the regex's backtracking search. -/
def globSegs : List (List Char) → List Char → Bool
  | [], _ => true
  | [seg], txt => (afterSub seg txt).isSome
  | seg :: rest, txt =>
    match afterSub seg txt with
    | none => false
    | some r1 =>
      match afterSub [':'] r1 with
      | none => false
      | some r2 => globSegs rest r2

/-- Whether `account` matches the pattern `get_account` builds from `base`. -/
def accountMatches (base account : List Char) : Bool :=
  globSegs (splitColon (toLowerL base)) (toLowerL account)

/-- `get_account` (bot.py lines 411-433).  The chart of accounts is modeled as
a list (the Python `set` has unspecified iteration order; `r[0]` is the first
match in that order).  Returns the account and the ambiguity flag (0 or 1). -/
def get_account (base : List Char) (accounts : List (List Char)) :
    List Char × Nat :=
  let r := accounts.filter (fun a => accountMatches base a)
  match r with
  | [] => (['T', 'O', 'D', 'O'], 1)
  | [a] => (a, 0)
  | a :: _ => (a, 1)

/-- One rendered posting line of the `bean` handler (bot.py line 625):
`'\n    ' + account + ' ' + str(amount) + ' ' + currency` where
`amount = Decimal(float(_amount)).quantize(Decimal('0.00'))`. -/
def renderLegLine (account : List Char) (amount : ℚ) (currency : List Char) :
    List Char :=
  '\n' :: ' ' :: ' ' :: ' ' :: ' ' :: account ++ ' ' ::
    renderFixed 2 (quantizeHalfEven 2 amount) ++ ' ' :: currency

/-- The transaction block built by `bean` (bot.py lines 618-631):
`f"{date} {flag_mark} \"\" \"{note}\"{transactions}\n"` over already-resolved
legs. -/
def render_transaction (dateS : List Char) (flagMark : Char) (note : List Char)
    (rlegs : List Leg) : List Char :=
  dateS ++ ' ' :: flagMark :: ' ' :: '"' :: '"' :: ' ' :: '"' :: note ++ '"' ::
    (rlegs.foldl (fun acc l => acc ++ renderLegLine l.1 l.2.1 l.2.2) []) ++ ['\n']

/-- The account-resolution and rendering pass of `bean` over parsed legs:
resolve each fragment with `get_account`, accumulate the ambiguity flags, and
render with `!` if any flag was raised, `*` otherwise. -/
def bean_render (accounts : List (List Char)) (dateS : List Char)
    (note : List Char) (legs : List Leg) : List Char :=
  let resolved := legs.map (fun l => ((get_account l.1 accounts).1, l.2.1, l.2.2))
  let flags := (legs.map (fun l => (get_account l.1 accounts).2)).sum
  render_transaction dateS (if 0 < flags then '!' else '*') note resolved

/-- Outcome of `revert_transaction`: either a conflict (ledger changed, no
write performed — the carried content is the untouched file), or the reverted
content written back. -/
inductive RevertOutcome where
  | conflict : List Char → RevertOutcome
  | reverted : List Char → RevertOutcome
deriving DecidableEq, Repr

/-- Python `content[:-k]`: note that `k = 0` yields the empty string. -/
def pySliceDropRight (l : List Char) (k : Nat) : List Char :=
  if k = 0 then [] else l.take (l.length - k)

/-- The ledger mutation of `revert_transaction` (bot.py lines 658-666): if the
current content does not end with the recorded transaction text, report a
conflict and leave the content unchanged; otherwise truncate and write
`content[:-len(transaction)]`. -/
def revert_transaction (content transaction : List Char) : RevertOutcome :=
  if listEndsWith content transaction then
    RevertOutcome.reverted (pySliceDropRight content transaction.length)
  else RevertOutcome.conflict content

/-! ### auto_balance.py -/

/-- A calendar date (`datetime.date`). -/
structure PyDate where
  year : Nat
  month : Nat
  day : Nat
deriving DecidableEq, Repr

/-- `date.isoformat()`: `YYYY-MM-DD` with zero padding. -/
def PyDate.iso (d : PyDate) : List Char :=
  List.leftpad 4 '0' (natChars d.year) ++ '-' ::
    (List.leftpad 2 '0' (natChars d.month) ++ '-' :: List.leftpad 2 '0' (natChars d.day))

/-- `DateMatcher` (auto_balance.py lines 18-30). -/
structure DateMatcher where
  dayOfMonth : Option Nat := none
  exactDate : Option PyDate := none
deriving DecidableEq, Repr

/-- `DateMatcher.matches`. -/
def DateMatcher.matchesDate (m : DateMatcher) (today : PyDate) : Bool :=
  match m.exactDate with
  | some d => today = d
  | none =>
    match m.dayOfMonth with
    | none => false
    | some day => today.day = day

/-- `AutoBalanceAccount` (auto_balance.py lines 33-55).  The fetcher call and
its arguments are summarised by the `apiFunction` key looked up in the
environment below. -/
structure ABAccount where
  name : List Char
  currency : List Char
  balance : ℚ := 0
  apiFunction : Option (List Char) := none
  precision : Nat := 2
deriving DecidableEq, Repr

/-- `AutoBalanceAccount.format_amount`: quantize to the account precision and
format fixed-point. -/
def ABAccount.formatAmount (a : ABAccount) (amount : ℚ) : List Char :=
  renderFixed a.precision (quantizeHalfEven a.precision amount)

/-- `AutoBalanceEntry` (auto_balance.py lines 58-65). -/
structure ABEntry where
  dates : List DateMatcher
  accounts : List ABAccount
deriving DecidableEq, Repr

/-- `AutoBalanceEntry.is_due`. -/
def ABEntry.isDue (e : ABEntry) (today : PyDate) : Bool :=
  e.dates.any (fun m => m.matchesDate today)

/-- Environment of a tick: the outcome of calling each named fetcher with the
account's stored arguments (`resolve_fetcher` + the call in `resolve_amount`,
errors as codes), and the outcome of each attempted file append (`None` =
success; `some e` = the raised exception). -/
structure ABEnv where
  fetchers : List Char → Except Nat ℚ
  appendFail : List Char → Option Nat

/-- `AutoBalanceAccount.resolve_amount` (auto_balance.py lines 42-50): static
balance when no `api_function` is configured, otherwise the fetcher call's
outcome. -/
def resolveAmount (env : ABEnv) (a : ABAccount) : Except Nat ℚ :=
  match a.apiFunction with
  | none => Except.ok a.balance
  | some f => env.fetchers f

/-- The shared line prefix `f"{date} balance {account}"` used both when
rendering a balance line and when scanning for an existing one. -/
def balPrefix (today : PyDate) (name : List Char) : List Char :=
  today.iso ++ ' ' :: 'b' :: 'a' :: 'l' :: 'a' :: 'n' :: 'c' :: 'e' :: ' ' :: name

/-- `format_balance_line` (auto_balance.py lines 158-160):
`f"{date} balance {account} {amount} {currency}\n"`. -/
def formatBalanceLine (today : PyDate) (a : ABAccount) (amount : ℚ) : List Char :=
  balPrefix today a.name ++ ' ' :: (a.formatAmount amount ++ ' ' :: (a.currency ++ ['\n']))

/-- `AutoBalanceManager._has_existing_line` (auto_balance.py lines 135-147):
scan the ledger lines for one whose `strip()` starts with
`"<iso date> balance <account>"`. -/
def hasExistingLine (content : List Char) (today : PyDate) (name : List Char) :
    Bool :=
  (splitNl content).any (fun ln => listStartsWith (balPrefix today name) (stripL ln))

/-- `append_balance_line` (auto_balance.py lines 150-155): append, adding a
newline only when the line lacks one. -/
def appendBalanceLine (content line : List Char) : List Char :=
  content ++ line ++ (if listEndsWith line ['\n'] then [] else ['\n'])

/-- The in-memory watermark `_last_processed`, an association list keyed by
`(account, iso-date)`. -/
abbrev Watermark := List ((List Char × List Char) × PyDate)

/-- Lookup in the watermark (`dict.get`). -/
def wmGet (w : Watermark) (k : List Char × List Char) : Option PyDate :=
  match w.find? (fun p => p.1 = k) with
  | some p => some p.2
  | none => none

/-- Store in the watermark (`dict.__setitem__`). -/
def wmSet (w : Watermark) (k : List Char × List Char) (d : PyDate) : Watermark :=
  (k, d) :: w

/-- State threaded through one `process_due_entries` tick. -/
structure ABState where
  content : List Char
  watermark : Watermark
  additions : List (ABAccount × ℚ × List Char)
  errors : List (ABAccount × Nat)

/-- The body of the inner account loop of
`AutoBalanceManager.process_due_entries` (auto_balance.py lines 110-131). -/
def processAccount (env : ABEnv) (today : PyDate) (st : ABState)
    (a : ABAccount) : ABState :=
  let key := (a.name, today.iso)
  if wmGet st.watermark key = some today then st
  else if hasExistingLine st.content today a.name then
    { st with watermark := wmSet st.watermark key today }
  else
    match resolveAmount env a with
    | Except.error e => { st with errors := st.errors ++ [(a, e)] }
    | Except.ok amount =>
      let line := formatBalanceLine today a amount
      match env.appendFail line with
      | some e => { st with errors := st.errors ++ [(a, e)] }
      | none =>
        { st with
          content := appendBalanceLine st.content line
          watermark := wmSet st.watermark key today
          additions := st.additions ++ [(a, amount, line)] }

/-- The account loop over one due entry's accounts. -/
def processAccounts (env : ABEnv) (today : PyDate) (accounts : List ABAccount)
    (st : ABState) : ABState :=
  accounts.foldl (processAccount env today) st

/-- `AutoBalanceManager.process_due_entries` (auto_balance.py lines 95-133)
for a fixed `today`: skip entries not due, process each due entry's
accounts in order. -/
def processDue (env : ABEnv) (today : PyDate) (entries : List ABEntry)
    (st : ABState) : ABState :=
  entries.foldl
    (fun s e => if e.isDue today then processAccounts env today e.accounts s else s) st

/-- Modelled from the spec: the leg-scan loop exactly as claim C3 words it,
with the position bound "strictly before the second-to-last token"
(`2 * n + 1 < len(data) - 2`) instead of the code's
`2 * n + 1 < len(data) - 1`. -/
def specLegScanAux (toks : List (List Char)) : Nat → Nat → Nat
  | 0, n => n
  | fuel + 1, n =>
    if 2 * n + 1 < toks.length - 2 &&
        (parseAmountToken (toks.getD (2 * n + 1) [])).isSome then
      specLegScanAux toks fuel (n + 1)
    else n

/-- Modelled from the spec: claim C3's greedy leg count. -/
def specLegScan (toks : List (List Char)) : Nat := specLegScanAux toks toks.length 0

/-- Concrete account used by the C4 counterexample scenario. -/
def cexAccount : ABAccount :=
  { name := "Assets:A".toList, currency := "CNY".toList, balance := 5,
    apiFunction := none, precision := 2 }

/-- Concrete auto-balance entry (due on day 1 of every month). -/
def cexEntry : ABEntry :=
  { dates := [{ dayOfMonth := some 1 }], accounts := [cexAccount] }

/-- Concrete environment: no fetchers needed, appends always succeed. -/
def cexEnv : ABEnv :=
  { fetchers := fun _ => Except.error 0, appendFail := fun _ => none }

/-- Concrete tick date for the C4 counterexample. -/
def cexToday : PyDate := ⟨2025, 1, 1⟩

/-- Concrete account whose value is fetched through a named fetcher (used by
the C9 witness). -/
def c9Account : ABAccount :=
  { name := "Assets:B".toList, currency := "CNY".toList, balance := 0,
    apiFunction := some ("fetchX".toList), precision := 2 }

/-- Concrete environment whose fetchers always raise (used by the C9
witness). -/
def c9Env : ABEnv :=
  { fetchers := fun _ => Except.error 7, appendFail := fun _ => none }

/-! ## Helper lemmas -/

theorem listStartsWith_append (p r : List Char) :
    listStartsWith p (p ++ r) = true := by
  induction p with
  | nil => rfl
  | cons c cs ih => simp [listStartsWith, ih]

theorem listStartsWith_iff (p l : List Char) :
    listStartsWith p l = true ↔ p <+: l := by
  induction p generalizing l with
  | nil => simp [listStartsWith]
  | cons c cs ih =>
    cases l with
    | nil => simp [listStartsWith]
    | cons d ds =>
      simp only [listStartsWith, Bool.and_eq_true, decide_eq_true_eq, ih,
        List.cons_prefix_cons]

theorem listEndsWith_append (pre b : List Char) :
    listEndsWith (pre ++ b) b = true := by
  unfold listEndsWith
  rw [List.reverse_append]
  exact listStartsWith_append _ _

theorem listEndsWith_iff (l suf : List Char) :
    listEndsWith l suf = true ↔ suf <:+ l := by
  unfold listEndsWith
  rw [listStartsWith_iff, List.reverse_prefix]

theorem pySliceDropRight_append (pre b : List Char) (hb : b ≠ []) :
    pySliceDropRight (pre ++ b) b.length = pre := by
  unfold pySliceDropRight
  rw [if_neg (by simpa using hb)]
  rw [List.length_append, Nat.add_sub_cancel, List.take_left]

theorem render_transaction_ne_nil (dateS : List Char) (flagMark : Char)
    (note : List Char) (rlegs : List Leg) :
    render_transaction dateS flagMark note rlegs ≠ [] := by
  unfold render_transaction
  intro h
  have := congrArg List.length h
  simp at this

/-! ## C5: append then revert restores the previous content -/

/-- Claim C5 (confirmed): for every prior ledger content and every rendered
transaction block, appending the block and then reverting it leaves the final
content exactly equal to the content before the append. -/
theorem C5_append_revert_roundtrip (prior : List Char) (dateS : List Char)
    (flagMark : Char) (note : List Char) (rlegs : List Leg) :
    revert_transaction (prior ++ render_transaction dateS flagMark note rlegs)
        (render_transaction dateS flagMark note rlegs)
      = RevertOutcome.reverted prior := by
  unfold revert_transaction
  rw [if_pos (listEndsWith_append _ _)]
  rw [pySliceDropRight_append _ _ (render_transaction_ne_nil _ _ _ _)]

/-! ## C6: revert either reports a conflict without writing, or removes
exactly the recorded suffix -/

/-- Claim C6 (confirmed): if the ledger content does not end with the recorded
rendered block, `revert_transaction` reports a conflict and leaves the content
unchanged; if it does, it truncates away exactly that suffix. -/
theorem C6_revert_conflict_or_truncate (content : List Char) (dateS : List Char)
    (flagMark : Char) (note : List Char) (rlegs : List Leg) :
    (listEndsWith content (render_transaction dateS flagMark note rlegs) = false →
      revert_transaction content (render_transaction dateS flagMark note rlegs)
        = RevertOutcome.conflict content)
    ∧ (listEndsWith content (render_transaction dateS flagMark note rlegs) = true →
      ∃ pre, content = pre ++ render_transaction dateS flagMark note rlegs ∧
        revert_transaction content (render_transaction dateS flagMark note rlegs)
          = RevertOutcome.reverted pre) := by
  constructor
  · intro h
    unfold revert_transaction
    rw [if_neg (by simp [h])]
  · intro h
    obtain ⟨pre, hpre⟩ := (listEndsWith_iff _ _).mp h
    refine ⟨pre, hpre.symm, ?_⟩
    subst hpre
    unfold revert_transaction
    rw [if_pos (listEndsWith_append _ _)]
    rw [pySliceDropRight_append _ _ (render_transaction_ne_nil _ _ _ _)]

/-- Witness for C6 at concrete inputs: a mutated ledger yields a conflict and
an intact ledger is truncated back. -/
theorem C6_witness :
    revert_transaction ("junk".toList)
        (render_transaction ("2025-01-01".toList) '*' [] [])
      = RevertOutcome.conflict ("junk".toList) := by
  refine (C6_revert_conflict_or_truncate ("junk".toList) ("2025-01-01".toList)
    '*' [] []).1 ?_
  decide

/-! ## C7: account resolution by match count -/

/-- Claim C7 (confirmed): `get_account` returns `("TODO", 1)` when no account
matches the wildcarded case-insensitive pattern built from the fragment, the
unique match with flag 0 when exactly one matches, and the first match with
flag 1 when two or more match. -/
theorem C7_get_account_cases (base : List Char) (accounts : List (List Char)) :
    (accounts.filter (fun a => accountMatches base a) = [] →
      get_account base accounts = (['T', 'O', 'D', 'O'], 1))
    ∧ (∀ a, accounts.filter (fun a => accountMatches base a) = [a] →
      get_account base accounts = (a, 0))
    ∧ (∀ a rest, accounts.filter (fun a => accountMatches base a) = a :: rest →
      rest ≠ [] → get_account base accounts = (a, 1)) := by
  refine ⟨?_, ?_, ?_⟩
  · intro h
    unfold get_account
    rw [h]
  · intro a h
    unfold get_account
    rw [h]
  · intro a rest h hne
    unfold get_account
    rw [h]
    cases rest with
    | nil => exact absurd rfl hne
    | cons b bs => rfl

/-- Witness for C7 at concrete inputs: two matches yield the first with the
ambiguity flag, zero matches yield the placeholder. -/
theorem C7_witness :
    get_account ("cup".toList) ["Assets:Cup".toList, "Expenses:Cup".toList]
        = ("Assets:Cup".toList, 1)
    ∧ get_account ("zzz".toList) ["Assets:Cup".toList] = (['T', 'O', 'D', 'O'], 1) := by
  constructor
  · exact (C7_get_account_cases ("cup".toList)
      ["Assets:Cup".toList, "Expenses:Cup".toList]).2.2
      ("Assets:Cup".toList) ["Expenses:Cup".toList] (by decide) (by decide)
  · exact (C7_get_account_cases ("zzz".toList) ["Assets:Cup".toList]).1 (by decide)

/-! ## C8: amount/currency parsing -/

/-- Claim C8 as stated is false: with a lowercase configured default currency,
the returned currency is the uppercased default, not the configured default
itself (`currency.upper()` is applied unconditionally in
`parse_amount_currency`). -/
theorem C8_counterexample :
    parse_amount_currency ("cny".toList) ("2.20".toList)
        = some ("2.20".toList, "CNY".toList)
    ∧ "CNY".toList ≠ "cny".toList := by
  constructor
  · rfl
  · decide

/-- Claim C8 (amended): the three example parses hold, and in general the
returned currency is the trailing alphabetic code uppercased when present, and
the configured default currency uppercased when the code is absent. -/
theorem C8_amount_parsing (defCur : List Char) :
    parse_amount_currency defCur ("4.5sgd".toList)
        = some ("4.5".toList, "SGD".toList)
    ∧ parse_amount_currency defCur ("2.20".toList)
        = some ("2.20".toList, toUpperL defCur)
    ∧ parse_amount_currency defCur ("-3.37".toList)
        = some ("-3.37".toList, toUpperL defCur)
    ∧ ∀ s r, parse_amount_currency defCur s = some r →
        ∃ g c, parseAmountToken s = some (g, c) ∧
          r = (g, toUpperL (if c = [] then defCur else c)) := by
  refine ⟨rfl, rfl, rfl, ?_⟩
  intro s r hr
  cases h : parseAmountToken s with
  | none => simp [parse_amount_currency, h] at hr
  | some p =>
    obtain ⟨g, c⟩ := p
    refine ⟨g, c, rfl, ?_⟩
    simp [parse_amount_currency, h] at hr
    exact hr.symm

/-- Witness for C8's general clause at a concrete token. -/
theorem C8_witness :
    ∃ g c, parseAmountToken ("7.5usd".toList) = some (g, c) ∧
      (("7.5".toList, "USD".toList) : List Char × List Char)
        = (g, toUpperL (if c = [] then "cny".toList else c)) :=
  (C8_amount_parsing ("cny".toList)).2.2.2 ("7.5usd".toList)
    ("7.5".toList, "USD".toList) (by rfl)

/-! ## Leg-scan lemmas -/

theorem legScanAux_le (toks : List (List Char)) :
    ∀ fuel n, n ≤ legScanAux toks fuel n := by
  intro fuel
  induction fuel with
  | zero => intro n; simp [legScanAux]
  | succ f ih =>
    intro n
    simp only [legScanAux]
    split
    · exact le_trans (Nat.le_succ n) (ih (n + 1))
    · exact le_refl n

theorem legScanAux_sound (toks : List (List Char)) :
    ∀ fuel n i, n ≤ i → i < legScanAux toks fuel n →
      2 * i + 1 < toks.length - 1 ∧
        (parseAmountToken (toks.getD (2 * i + 1) [])).isSome = true := by
  intro fuel
  induction fuel with
  | zero =>
    intro n i hni hlt
    simp only [legScanAux] at hlt
    omega
  | succ f ih =>
    intro n i hni hlt
    simp only [legScanAux] at hlt
    by_cases hc : (decide (2 * n + 1 < toks.length - 1) &&
        (parseAmountToken (toks.getD (2 * n + 1) [])).isSome) = true
    · rw [if_pos hc] at hlt
      rcases Nat.lt_or_ge n i with hni' | hni'
      · exact ih (n + 1) i hni' hlt
      · have : i = n := le_antisymm hni' hni
        subst this
        simpa [Bool.and_eq_true, decide_eq_true_eq] using hc
    · rw [if_neg hc] at hlt
      omega

theorem legScanAux_stop (toks : List (List Char)) :
    ∀ fuel n, toks.length ≤ 2 * n + fuel →
      ¬(2 * legScanAux toks fuel n + 1 < toks.length - 1 ∧
        (parseAmountToken (toks.getD (2 * legScanAux toks fuel n + 1) [])).isSome
          = true) := by
  intro fuel
  induction fuel with
  | zero =>
    intro n hle
    simp only [legScanAux]
    rintro ⟨h1, _⟩
    omega
  | succ f ih =>
    intro n hle
    simp only [legScanAux]
    by_cases hc : (decide (2 * n + 1 < toks.length - 1) &&
        (parseAmountToken (toks.getD (2 * n + 1) [])).isSome) = true
    · rw [if_pos hc]
      exact ih (n + 1) (by omega)
    · rw [if_neg hc]
      rintro ⟨h1, h2⟩
      exact hc (by simp only [Bool.and_eq_true, decide_eq_true_eq]; exact ⟨h1, h2⟩)

/-! ## C3: the leg segmenter -/

/-- Claim C3 as stated is false: on the tokens of `"a 1 b"`, `get_leg_num`
returns 1 (the code's bound is `2n+1 < len-1`, i.e. at or before the
second-to-last token), while the greedy count with the claim's bound
"strictly before the second-to-last token" is 0. -/
theorem C3_counterexample :
    ¬(get_leg_num ["a".toList, "1".toList, "b".toList]
        = specLegScan ["a".toList, "1".toList, "b".toList]) := by
  decide

/-- Claim C3 (amended): `get_leg_num` is the greedy count with the bound
"strictly before the last token" (`2n+1 < len-1`): every counted position
matches the amount grammar within that bound, the count stops at the first
position that fails, and the eight-token example message yields 3. -/
theorem C3_leg_scan :
    (∀ toks : List (List Char),
      (∀ i, i < get_leg_num toks →
        2 * i + 1 < toks.length - 1 ∧
          (parseAmountToken (toks.getD (2 * i + 1) [])).isSome = true)
      ∧ ¬(2 * get_leg_num toks + 1 < toks.length - 1 ∧
          (parseAmountToken (toks.getD (2 * get_leg_num toks + 1) [])).isSome
            = true))
    ∧ get_leg_num (splitWS ("2739 4.5 in:cup 0.5 9423 1.0 5587 还款".toList)) = 3 := by
  constructor
  · intro toks
    constructor
    · intro i hi
      exact legScanAux_sound toks toks.length 0 i (Nat.zero_le i) hi
    · exact legScanAux_stop toks toks.length 0 (by omega)
  · decide

/-- Witness for C3's per-position clause at a concrete token list. -/
theorem C3_witness :
    2 * 0 + 1 < (["a".toList, "1".toList, "b".toList] : List (List Char)).length - 1 ∧
      (parseAmountToken ((["a".toList, "1".toList, "b".toList] :
        List (List Char)).getD (2 * 0 + 1) [])).isSome = true :=
  (C3_leg_scan.1 ["a".toList, "1".toList, "b".toList]).1 0 (by decide)

/-! ## C10: the invalid-amount branch of the leg loop is unreachable -/

theorem legLoop_ok (defCur : List Char) (toks : List (List Char)) :
    ∀ n, (∀ i, i < n → (parseAmountToken (toks.getD (2 * i + 1) [])).isSome = true) →
      ∃ out, legLoop defCur toks n = Except.ok out := by
  intro n
  induction n with
  | zero => exact fun _ => ⟨([], 0, defCur), rfl⟩
  | succ m ih =>
    intro h
    obtain ⟨⟨legs, s, cur⟩, hout⟩ := ih (fun i hi => h i (Nat.lt_succ_of_lt hi))
    have hm := h m (Nat.lt_succ_self m)
    rw [Option.isSome_iff_exists] at hm
    obtain ⟨⟨g, c⟩, hg⟩ := hm
    refine ⟨(legs ++ [(toks.getD (2 * m) [], -(decimalToRat g),
        toUpperL (if c.isEmpty then defCur else c))],
      s + decimalToRat g, toUpperL (if c.isEmpty then defCur else c)), ?_⟩
    simp only [legLoop, hout, parse_amount_currency, hg]

/-- Claim C10 (confirmed): every position counted by `get_leg_num` matches the
amount grammar, so the `raise ValueError('Invalid amount format')` branch in
`parse_message`'s leg loop can never fire: `parse_message` never returns the
invalid-amount error on any tokenized input. -/
theorem C10_no_invalid_amount (defCur : List Char) (toks : List (List Char)) :
    parse_message_toks defCur toks ≠ Except.error ParseErr.invalidAmount := by
  obtain ⟨⟨legs, s, cur⟩, hout⟩ := legLoop_ok defCur toks (get_leg_num toks)
    (fun i hi => (legScanAux_sound toks toks.length 0 i (Nat.zero_le i) hi).2)
  simp only [parse_message_toks, hout]
  split <;> simp

/-! ## C2: the shape of parse_message results -/

theorem legLoop_spec (defCur : List Char) (toks : List (List Char)) :
    ∀ n, (∀ i, i < n → (parseAmountToken (toks.getD (2 * i + 1) [])).isSome = true) →
      ∃ legs s cur, legLoop defCur toks n = Except.ok (legs, s, cur) ∧
        legs.length = n ∧
        (∀ i, i < n → ∃ g c,
          parse_amount_currency defCur (toks.getD (2 * i + 1) []) = some (g, c) ∧
            legs.getD i ([], 0, []) = (toks.getD (2 * i) [], -(decimalToRat g), c)) ∧
        s = -((legs.map fun l => l.2.1).sum) ∧
        (n = 0 → cur = defCur) ∧
        (0 < n → cur = (legs.getD (n - 1) ([], 0, [])).2.2) := by
  intro n
  induction n with
  | zero =>
    intro _
    refine ⟨[], 0, defCur, rfl, rfl, ?_, by simp, fun _ => rfl, ?_⟩
    · intro i hi; omega
    · intro h; omega
  | succ m ih =>
    intro h
    obtain ⟨legs, s, cur, hout, hlen, hlegs, hsum, _, hcur⟩ :=
      ih (fun i hi => h i (Nat.lt_succ_of_lt hi))
    have hm := h m (Nat.lt_succ_self m)
    rw [Option.isSome_iff_exists] at hm
    obtain ⟨⟨g, c⟩, hg⟩ := hm
    have hpac : parse_amount_currency defCur (toks.getD (2 * m + 1) [])
        = some (g, toUpperL (if c.isEmpty then defCur else c)) := by
      simp only [parse_amount_currency, hg]
    refine ⟨legs ++ [(toks.getD (2 * m) [], -(decimalToRat g),
        toUpperL (if c.isEmpty then defCur else c))],
      s + decimalToRat g, toUpperL (if c.isEmpty then defCur else c),
      ?_, ?_, ?_, ?_, ?_, ?_⟩
    · simp only [legLoop, hout, hpac]
    · simp [hlen]
    · intro i hi
      rcases Nat.lt_or_ge i m with him | him
      · obtain ⟨g', c', hg', hleg'⟩ := hlegs i him
        refine ⟨g', c', hg', ?_⟩
        rw [List.getD_append _ _ _ _ (by omega)]
        exact hleg'
      · have : i = m := by omega
        subst this
        refine ⟨g, toUpperL (if c.isEmpty then defCur else c), hpac, ?_⟩
        rw [List.getD_append_right _ _ _ _ (by omega), hlen]
        simp
    · simp only [List.map_append, List.sum_append, List.map_cons, List.map_nil,
        List.sum_cons, List.sum_nil]
      rw [hsum]
      ring
    · intro hcontra; omega
    · intro _
      rw [Nat.succ_sub_one, List.getD_append_right _ _ _ _ (by omega), hlen]
      simp

/-- Claim C2 (confirmed): with `n = get_leg_num(tokens) ≥ 1`, `parse_message`
returns, for each `i < n`, the leg `(token 2i, negated parsed magnitude of
token 2i+1, that token's parsed currency)`, then the terminal leg
`(token 2n, the sum of all source magnitudes, the currency of the last-parsed
leg)`, and the note joining the tokens after position `2n` with single spaces;
and `parse_message("xxxx 4.5 xxxx")` with default currency `CNY` yields legs
`[("xxxx", -4.5, CNY), ("xxxx", 4.5, CNY)]` and the empty note. -/
theorem C2_parse_message :
    (∀ defCur toks, 1 ≤ get_leg_num toks →
      ∃ legs note, parse_message_toks defCur toks = Except.ok (legs, note) ∧
        legs.length = get_leg_num toks + 1 ∧
        (∀ i, i < get_leg_num toks → ∃ g c,
          parse_amount_currency defCur (toks.getD (2 * i + 1) []) = some (g, c) ∧
            legs.getD i ([], 0, []) = (toks.getD (2 * i) [], -(decimalToRat g), c)) ∧
        legs.getD (get_leg_num toks) ([], 0, [])
          = (toks.getD (2 * get_leg_num toks) [],
             -(((legs.take (get_leg_num toks)).map fun l => l.2.1).sum),
             (legs.getD (get_leg_num toks - 1) ([], 0, [])).2.2) ∧
        note = joinSp (toks.drop (2 * get_leg_num toks + 1)))
    ∧ parse_message ("CNY".toList) ("xxxx 4.5 xxxx".toList)
        = Except.ok ([("xxxx".toList, -(45 / 10 : ℚ), "CNY".toList),
            ("xxxx".toList, (45 / 10 : ℚ), "CNY".toList)], []) := by
  constructor
  · intro defCur toks h1
    obtain ⟨legs, s, cur, hout, hlen, hlegs, hsum, _, hcur⟩ :=
      legLoop_spec defCur toks (get_leg_num toks)
        (fun i hi => (legScanAux_sound toks toks.length 0 i (Nat.zero_le i) hi).2)
    have hbound : 2 * (get_leg_num toks - 1) + 1 < toks.length - 1 :=
      (legScanAux_sound toks toks.length 0 (get_leg_num toks - 1)
        (Nat.zero_le _)
        (by show get_leg_num toks - 1 < get_leg_num toks; omega)).1
    have hidx : 2 * get_leg_num toks < toks.length := by omega
    refine ⟨legs ++ [(toks.getD (2 * get_leg_num toks) [], s, cur)],
      joinSp (toks.drop (2 * get_leg_num toks + 1)), ?_, ?_, ?_, ?_, rfl⟩
    · simp only [parse_message_toks, hout]
      rw [if_pos hidx]
    · simp [hlen]
    · intro i hi
      obtain ⟨g, c, hg, hleg⟩ := hlegs i hi
      refine ⟨g, c, hg, ?_⟩
      rw [List.getD_append _ _ _ _ (by omega)]
      exact hleg
    · rw [List.getD_append_right _ _ _ _ (by omega), hlen]
      rw [List.take_left' hlen]
      rw [List.getD_append _ _ _ _ (by omega)]
      simp only [Nat.sub_self, List.getD_cons_zero]
      rw [← hsum, ← hcur (by omega)]
  · decide

/-- Witness for C2 at the example message. -/
theorem C2_witness :
    ∃ legs note,
      parse_message_toks ("CNY".toList) (splitWS ("xxxx 4.5 xxxx".toList))
        = Except.ok (legs, note) ∧
      legs.length = get_leg_num (splitWS ("xxxx 4.5 xxxx".toList)) + 1 := by
  obtain ⟨legs, note, hok, hlen, _⟩ :=
    C2_parse_message.1 ("CNY".toList) (splitWS ("xxxx 4.5 xxxx".toList)) (by decide)
  exact ⟨legs, note, hok, hlen⟩

/-! ## C1: the balance invariant of rendered amounts -/

theorem ratFloor_intCast (k : ℤ) : Rat.floor ((k : ℚ)) = k := by
  rw [Rat.floor_def']
  simp

theorem roundHalfEven_intCast (k : ℤ) : roundHalfEven ((k : ℚ)) = k := by
  unfold roundHalfEven
  rw [ratFloor_intCast]
  norm_num

theorem quantizeHalfEven_of_mul_int (q : ℚ) (k : ℤ) (h : q * 100 = (k : ℚ)) :
    quantizeHalfEven 2 q = q := by
  unfold quantizeHalfEven
  have h10 : q * (10 : ℚ) ^ 2 = (k : ℚ) := by
    rw [← h]; norm_num
  rw [h10, roundHalfEven_intCast]
  have : q = (k : ℚ) / 100 := by
    field_simp at h ⊢
    linarith
  rw [this]
  norm_num

theorem roundHalfEven_fract (x : ℚ) :
    roundHalfEven x = if Int.fract x < 1 / 2 then ⌊x⌋
      else if 1 / 2 < Int.fract x then ⌊x⌋ + 1
      else if ⌊x⌋ % 2 = 0 then ⌊x⌋ else ⌊x⌋ + 1 := rfl

theorem roundHalfEven_neg (x : ℚ) : roundHalfEven (-x) = -roundHalfEven x := by
  by_cases h0 : Int.fract x = 0
  · have hx : x = ((⌊x⌋ : ℤ) : ℚ) := by
      have h := Int.self_sub_fract x
      rw [h0, sub_zero] at h
      exact h
    rw [hx, ← Int.cast_neg, roundHalfEven_intCast, roundHalfEven_intCast]
  · have hr0 : 0 ≤ Int.fract x := Int.fract_nonneg x
    have hr1 : Int.fract x < 1 := Int.fract_lt_one x
    have hfr : Int.fract (-x) = 1 - Int.fract x := Int.fract_neg h0
    have hflq : ((⌊-x⌋ : ℤ) : ℚ) = -((⌊x⌋ : ℤ) : ℚ) - 1 := by
      have ha := Int.self_sub_fract (-x)
      have hb := Int.self_sub_fract x
      rw [hfr] at ha
      linarith
    have hfl : ⌊-x⌋ = -⌊x⌋ - 1 := by exact_mod_cast hflq
    rw [roundHalfEven_fract, roundHalfEven_fract, hfr, hfl]
    split_ifs <;> first | omega | linarith

theorem quantizeHalfEven_neg (p : Nat) (x : ℚ) :
    quantizeHalfEven p (-x) = -quantizeHalfEven p x := by
  unfold quantizeHalfEven
  rw [neg_mul, roundHalfEven_neg]
  push_cast
  ring

theorem legLoop_length (defCur : List Char) (toks : List (List Char)) :
    ∀ n legs s cur, legLoop defCur toks n = Except.ok (legs, s, cur) →
      legs.length = n := by
  intro n
  induction n with
  | zero =>
    intro legs s cur hout
    simp only [legLoop, Except.ok.injEq, Prod.mk.injEq] at hout
    obtain ⟨h1, _, _⟩ := hout
    rw [← h1]
    rfl
  | succ m ih =>
    intro legs s cur hout
    simp only [legLoop] at hout
    cases h : legLoop defCur toks m with
    | error e => rw [h] at hout; exact absurd hout (by simp)
    | ok out =>
      obtain ⟨legs0, s0, cur0⟩ := out
      rw [h] at hout
      cases hp : parse_amount_currency defCur (toks.getD (2 * m + 1) []) with
      | none => rw [hp] at hout; exact absurd hout (by simp)
      | some p =>
        obtain ⟨g, c⟩ := p
        rw [hp] at hout
        simp only [Except.ok.injEq, Prod.mk.injEq] at hout
        obtain ⟨h1, _, _⟩ := hout
        rw [← h1]
        simp [ih legs0 s0 cur0 h]

theorem legLoop_sum (defCur : List Char) (toks : List (List Char)) :
    ∀ n legs s cur, legLoop defCur toks n = Except.ok (legs, s, cur) →
      s = -((legs.map fun l => l.2.1).sum) := by
  intro n
  induction n with
  | zero =>
    intro legs s cur hout
    simp only [legLoop, Except.ok.injEq, Prod.mk.injEq] at hout
    obtain ⟨h1, h2, _⟩ := hout
    subst h1; subst h2
    simp
  | succ m ih =>
    intro legs s cur hout
    simp only [legLoop] at hout
    cases h : legLoop defCur toks m with
    | error e => rw [h] at hout; exact absurd hout (by simp)
    | ok out =>
      obtain ⟨legs0, s0, cur0⟩ := out
      rw [h] at hout
      cases hp : parse_amount_currency defCur (toks.getD (2 * m + 1) []) with
      | none => rw [hp] at hout; exact absurd hout (by simp)
      | some p =>
        obtain ⟨g, c⟩ := p
        rw [hp] at hout
        simp only [Except.ok.injEq, Prod.mk.injEq] at hout
        obtain ⟨h1, h2, _⟩ := hout
        subst h1; subst h2
        rw [ih legs0 s0 cur0 h]
        simp only [List.map_append, List.sum_append, List.map_cons, List.map_nil,
          List.sum_cons, List.sum_nil]
        ring

theorem parse_message_toks_ok_shape (defCur : List Char) (toks : List (List Char))
    (legs : List Leg) (note : List Char)
    (hok : parse_message_toks defCur toks = Except.ok (legs, note)) :
    ∃ src s cur, legLoop defCur toks (get_leg_num toks) = Except.ok (src, s, cur) ∧
      legs = src ++ [(toks.getD (2 * get_leg_num toks) [], s, cur)] ∧
      s = -((src.map fun l => l.2.1).sum) := by
  cases h : legLoop defCur toks (get_leg_num toks) with
  | error e =>
    simp only [parse_message_toks, h] at hok
    exact absurd hok (by simp)
  | ok out =>
    obtain ⟨src, s, cur⟩ := out
    simp only [parse_message_toks, h] at hok
    by_cases hidx : 2 * get_leg_num toks < toks.length
    · rw [if_pos hidx] at hok
      simp only [Except.ok.injEq, Prod.mk.injEq] at hok
      exact ⟨src, s, cur, rfl, hok.1.symm, legLoop_sum defCur toks _ src s cur h⟩
    · rw [if_neg hidx] at hok
      exact absurd hok (by simp)

/-- Claim C1 as stated is false: the message `"a 0.125 b 0.125 c"` is accepted
by the compiler (both amount tokens parse), yet the rendered two-decimal
amounts are `-0.12, -0.12, 0.25` (round-half-even per leg), summing to `0.01`,
not zero.  All values involved are exactly representable binary fractions, so
Python's float/Decimal pipeline computes the same numbers. -/
theorem C1_counterexample :
    (parse_message ("CNY".toList) ("a 0.125 b 0.125 c".toList)).map
        (fun r => (r.1.map fun l => quantizeHalfEven 2 l.2.1).sum)
      = Except.ok (1 / 100 : ℚ)
    ∧ (1 / 100 : ℚ) ≠ 0 := by
  constructor
  · decide
  · norm_num

/-- Claim C1 (amended): for every message accepted by the compiler with at
most one source leg — so the appended block has at most two legs, the
optional source leg and the terminal leg — the sum of the rendered
two-decimal leg amounts is exactly zero.  With one source leg the block's
amounts are `-x` and `x` for the single parsed value `x` (no sum of several
floats is formed), and half-even quantization is symmetric under negation,
so the cancellation holds for whatever value the program parses — the
exact-rational model is not load-bearing here.  With two or more source
legs exact balance can fail: through per-leg quantization of amounts with
more than two decimals (the counterexample), and, in the program, through
binary float rounding of the accumulated sum even for two-decimal amounts at
magnitudes near `2 ^ 46`. -/
theorem C1_rendered_balance (defCur : List Char) (toks : List (List Char))
    (legs : List Leg) (note : List Char)
    (hok : parse_message_toks defCur toks = Except.ok (legs, note))
    (hn : get_leg_num toks ≤ 1) :
    (legs.map fun l => quantizeHalfEven 2 l.2.1).sum = 0 := by
  obtain ⟨src, s, cur, hloop, hlegs, hsum⟩ :=
    parse_message_toks_ok_shape defCur toks legs note hok
  have hlen : src.length = get_leg_num toks :=
    legLoop_length defCur toks _ src s cur hloop
  subst hlegs
  cases src with
  | nil =>
    simp only [List.map_nil, List.sum_nil, neg_zero] at hsum
    simp only [List.nil_append, List.map_cons, List.map_nil, List.sum_cons,
      List.sum_nil, add_zero]
    rw [hsum]
    exact quantizeHalfEven_of_mul_int 0 0 (by norm_num)
  | cons l0 tl =>
    have htl : tl = [] := by
      rw [List.length_cons] at hlen
      have h0 : tl.length = 0 := by omega
      exact List.eq_nil_of_length_eq_zero h0
    subst htl
    simp only [List.map_cons, List.map_nil, List.sum_cons, List.sum_nil,
      add_zero] at hsum
    simp only [List.cons_append, List.nil_append, List.map_cons, List.map_nil,
      List.sum_cons, List.sum_nil, add_zero]
    rw [hsum, quantizeHalfEven_neg]
    ring

/-- Witness for C1 at a concrete one-source-leg message. -/
theorem C1_witness :
    ∃ legs note,
      parse_message_toks ("CNY".toList) (splitWS ("a 4.5 b".toList))
        = Except.ok (legs, note) ∧
      (legs.map fun l => quantizeHalfEven 2 l.2.1).sum = 0 := by
  refine ⟨[("a".toList, -(45 / 10 : ℚ), "CNY".toList),
    ("b".toList, (45 / 10 : ℚ), "CNY".toList)], [], by decide, ?_⟩
  exact C1_rendered_balance ("CNY".toList) (splitWS ("a 4.5 b".toList)) _ []
    (by decide) (by decide)

/-! ## Character-class and text lemmas for the auto-balance scan -/

theorem digitChar_not_ws {d : Nat} (hd : d < 10) :
    pyWS (Nat.digitChar d) = false ∧ Nat.digitChar d ≠ '\n' := by
  interval_cases d <;> exact ⟨by decide, by decide⟩

theorem natCharsCore_prop (P : Char → Prop) (hP : ∀ d, d < 10 → P (Nat.digitChar d)) :
    ∀ fuel n acc, (∀ c ∈ acc, P c) → ∀ c ∈ natCharsCore fuel n acc, P c := by
  intro fuel
  induction fuel with
  | zero => intro n acc hacc c hc; exact hacc c hc
  | succ f ih =>
    intro n acc hacc c hc
    simp only [natCharsCore] at hc
    by_cases hn : n = 0
    · rw [if_pos hn] at hc; exact hacc c hc
    · rw [if_neg hn] at hc
      refine ih (n / 10) _ ?_ c hc
      intro c' hc'
      rcases List.mem_cons.mp hc' with h | h
      · rw [h]; exact hP _ (Nat.mod_lt _ (by omega))
      · exact hacc c' h

theorem natChars_prop (P : Char → Prop) (hP : ∀ d, d < 10 → P (Nat.digitChar d))
    (n : Nat) : ∀ c ∈ natChars n, P c := by
  intro c hc
  unfold natChars at hc
  by_cases hn : n = 0
  · rw [if_pos hn] at hc
    simp only [List.mem_singleton] at hc
    rw [hc]
    exact hP 0 (by omega)
  · rw [if_neg hn] at hc
    exact natCharsCore_prop P hP (n + 1) n [] (by simp) c hc

theorem natCharsCore_length_le :
    ∀ fuel n acc, acc.length ≤ (natCharsCore fuel n acc).length := by
  intro fuel
  induction fuel with
  | zero => intro n acc; simp [natCharsCore]
  | succ f ih =>
    intro n acc
    simp only [natCharsCore]
    by_cases hn : n = 0
    · rw [if_pos hn]
    · rw [if_neg hn]
      calc acc.length ≤ (Nat.digitChar (n % 10) :: acc).length := by simp
        _ ≤ _ := ih (n / 10) _

theorem natChars_ne_nil (n : Nat) : natChars n ≠ [] := by
  unfold natChars
  by_cases hn : n = 0
  · rw [if_pos hn]; simp
  · rw [if_neg hn]
    simp only [natCharsCore, if_neg hn]
    intro h
    have hle := natCharsCore_length_le n (n / 10) [Nat.digitChar (n % 10)]
    rw [h] at hle
    simp at hle

theorem mem_leftpad {α : Type} {c : α} {n : Nat} {a : α} {l : List α}
    (h : c ∈ List.leftpad n a l) : c = a ∨ c ∈ l := by
  unfold List.leftpad at h
  rcases List.mem_append.mp h with h | h
  · exact Or.inl (List.eq_of_mem_replicate h)
  · exact Or.inr h

theorem leftpad_ne_nil {α : Type} (n : Nat) (a : α) {l : List α} (hl : l ≠ []) :
    List.leftpad n a l ≠ [] := by
  unfold List.leftpad
  intro h
  rcases List.append_eq_nil.mp h with ⟨_, h2⟩
  exact hl h2

theorem iso_no_ws (d : PyDate) : ∀ c ∈ d.iso, pyWS c = false := by
  intro c hc
  unfold PyDate.iso at hc
  have hdig : ∀ c', c' ∈ List.leftpad 4 '0' (natChars d.year) ∨
      c' ∈ List.leftpad 2 '0' (natChars d.month) ∨
      c' ∈ List.leftpad 2 '0' (natChars d.day) → pyWS c' = false := by
    intro c' hc'
    have base : ∀ m k, c' ∈ List.leftpad m '0' (natChars k) → pyWS c' = false := by
      intro m k hmem
      rcases mem_leftpad hmem with h | h
      · rw [h]; decide
      · exact natChars_prop (fun ch => pyWS ch = false)
          (fun e he => (digitChar_not_ws he).1) k c' h
    rcases hc' with h | h | h
    · exact base 4 d.year h
    · exact base 2 d.month h
    · exact base 2 d.day h
  simp only [List.mem_append, List.mem_cons] at hc
  rcases hc with h | h | h
  · exact hdig c (Or.inl h)
  · rw [h]; decide
  · rcases h with h | h | h
    · exact hdig c (Or.inr (Or.inl h))
    · rw [h]; decide
    · exact hdig c (Or.inr (Or.inr h))

theorem iso_ne_nil (d : PyDate) : d.iso ≠ [] := by
  unfold PyDate.iso
  intro h
  rcases List.append_eq_nil.mp h with ⟨h1, _⟩
  exact leftpad_ne_nil 4 '0' (natChars_ne_nil d.year) h1

theorem renderFixed_no_ws (p : Nat) (x : ℚ) :
    ∀ c ∈ renderFixed p x, pyWS c = false := by
  intro c hc
  unfold renderFixed at hc
  have hnat : ∀ k, ∀ c', c' ∈ natChars k → pyWS c' = false := fun k =>
    natChars_prop (fun ch => pyWS ch = false) (fun e he => (digitChar_not_ws he).1) k
  simp only [List.mem_append] at hc
  rcases hc with (h | h) | h
  · split at h
    · simp only [List.mem_singleton] at h; rw [h]; decide
    · simp at h
  · exact hnat _ c h
  · split at h
    · simp at h
    · simp only [List.mem_cons] at h
      rcases h with h | h
      · rw [h]; decide
      · rcases mem_leftpad h with h' | h'
        · rw [h']; decide
        · exact hnat _ c h'

theorem not_nl_of_not_ws {c : Char} (h : pyWS c = false) : c ≠ '\n' := by
  intro hc
  rw [hc] at h
  exact absurd h (by decide)

theorem dropWhile_cons_of_neg {p : Char → Bool} {c : Char} {t : List Char}
    (h : p c = false) : (c :: t).dropWhile p = c :: t := by
  simp [List.dropWhile_cons, h]

theorem dropWhile_append_of_ne_nil {p : Char → Bool} :
    ∀ l₁ l₂ : List Char, l₁.dropWhile p ≠ [] →
      (l₁ ++ l₂).dropWhile p = l₁.dropWhile p ++ l₂ := by
  intro l₁
  induction l₁ with
  | nil => intro l₂ h; exact absurd rfl h
  | cons c t ih =>
    intro l₂ h
    by_cases hc : p c = true
    · simp only [List.cons_append, List.dropWhile_cons, hc, if_pos] at h ⊢
      exact ih l₂ h
    · rw [Bool.not_eq_true] at hc
      simp only [List.cons_append, List.dropWhile_cons, hc]
      simp

theorem dropTrailingWS_append (a b : List Char)
    (hb : b.reverse.dropWhile pyWS ≠ []) :
    dropTrailingWS (a ++ b) = a ++ dropTrailingWS b := by
  unfold dropTrailingWS
  rw [List.reverse_append, dropWhile_append_of_ne_nil _ _ hb, List.reverse_append,
    List.reverse_reverse]

theorem stripL_of_shape (pre tail2 : List Char)
    (hhead : ∃ c t, pre = c :: t ∧ pyWS c = false)
    (hb : tail2.reverse.dropWhile pyWS ≠ []) :
    stripL (pre ++ tail2) = pre ++ dropTrailingWS tail2 := by
  obtain ⟨c, t, hp, hc⟩ := hhead
  subst hp
  unfold stripL dropLeadingWS
  rw [List.cons_append, dropWhile_cons_of_neg hc, ← List.cons_append,
    dropTrailingWS_append _ _ hb]

theorem splitNl_ne_nil (l : List Char) : splitNl l ≠ [] := by
  induction l with
  | nil => simp [splitNl]
  | cons c t ih =>
    simp only [splitNl]
    split
    · simp
    · cases h : splitNl t with
      | nil => exact absurd h ih
      | cons a b => simp

theorem splitNl_nlfree_append (body z : List Char) (hb : ∀ c ∈ body, c ≠ '\n') :
    splitNl (body ++ '\n' :: z) = body :: splitNl z := by
  induction body with
  | nil => simp [splitNl]
  | cons c t ih =>
    have hc : ¬(c = '\n') := hb c (by simp)
    simp only [List.cons_append, splitNl, List.append_eq]
    rw [if_neg (by simpa using hc)]
    rw [ih (fun c' hc' => hb c' (by simp [hc']))]

theorem splitNl_prepend_nl :
    ∀ a y : List Char, ∃ pre, pre ≠ [] ∧ splitNl (a ++ '\n' :: y) = pre ++ splitNl y := by
  intro a
  induction a with
  | nil =>
    intro y
    refine ⟨[[]], by simp, ?_⟩
    simp [splitNl]
  | cons c t ih =>
    intro y
    obtain ⟨pre', hne, heq⟩ := ih y
    cases hp : pre' with
    | nil => exact absurd hp hne
    | cons p ps =>
      rw [hp] at heq
      by_cases hc : c = '\n'
      · refine ⟨[] :: p :: ps, by simp, ?_⟩
        subst hc
        simp only [List.cons_append, splitNl, List.append_eq, if_pos]
        rw [heq]
        simp
      · refine ⟨(c :: p) :: ps, by simp, ?_⟩
        simp only [List.cons_append, splitNl, List.append_eq]
        rw [if_neg (by simpa using hc), heq]
        simp

theorem mem_splitNl_append (c₀ body : List Char)
    (h₀ : c₀ = [] ∨ ∃ c', c₀ = c' ++ ['\n'])
    (hb : ∀ c ∈ body, c ≠ '\n') :
    body ∈ splitNl (c₀ ++ (body ++ ['\n'])) := by
  rcases h₀ with h₀ | ⟨c', h₀⟩
  · subst h₀
    rw [List.nil_append]
    have : body ++ ['\n'] = body ++ '\n' :: ([] : List Char) := rfl
    rw [this, splitNl_nlfree_append body [] hb]
    simp
  · subst h₀
    rw [List.append_assoc, List.singleton_append]
    obtain ⟨pre, hne, heq⟩ := splitNl_prepend_nl c' (body ++ ['\n'])
    rw [heq]
    have : body ++ ['\n'] = body ++ '\n' :: ([] : List Char) := rfl
    rw [this, splitNl_nlfree_append body [] hb]
    simp

theorem dropTrailing_ne_nil_of_last {l init : List Char} {c : Char}
    (h : l = init ++ [c]) (hc : pyWS c = false) :
    l.reverse.dropWhile pyWS ≠ [] := by
  subst h
  rw [List.reverse_append]
  simp only [List.reverse_cons, List.reverse_nil, List.nil_append,
    List.singleton_append]
  rw [dropWhile_cons_of_neg hc]
  simp

theorem formatBalanceLine_decomp (today : PyDate) (a : ABAccount) (v : ℚ) :
    formatBalanceLine today a v
      = (balPrefix today a.name ++ ' ' :: (a.formatAmount v ++ ' ' :: a.currency))
          ++ ['\n'] := by
  unfold formatBalanceLine
  simp [List.append_assoc]

theorem balPrefix_no_nl (today : PyDate) (name : List Char)
    (hname : ∀ c ∈ name, c ≠ '\n') : ∀ c ∈ balPrefix today name, c ≠ '\n' := by
  intro c hc
  unfold balPrefix at hc
  simp only [List.mem_append, List.mem_cons] at hc
  rcases hc with h | h
  · exact not_nl_of_not_ws (iso_no_ws today c h)
  · rcases h with h | h | h | h | h | h | h | h | h | h
    all_goals first
      | (rw [h]; decide)
      | exact hname c h

theorem hasExistingLine_append (c₀ : List Char) (today : PyDate) (a : ABAccount)
    (v : ℚ) (h₀ : c₀ = [] ∨ ∃ c', c₀ = c' ++ ['\n'])
    (hname : ∀ c ∈ a.name, c ≠ '\n')
    (hcne : a.currency ≠ []) (hcur : ∀ c ∈ a.currency, pyWS c = false) :
    hasExistingLine (c₀ ++ formatBalanceLine today a v) today a.name = true := by
  unfold hasExistingLine
  rw [List.any_eq_true]
  rcases List.eq_nil_or_concat a.currency with hnil | ⟨cinit, cl, hcl⟩
  · exact absurd hnil hcne
  have hclws : pyWS cl = false := hcur cl (by rw [hcl]; simp)
  refine ⟨balPrefix today a.name ++ ' ' :: (a.formatAmount v ++ ' ' :: a.currency),
    ?_, ?_⟩
  · rw [formatBalanceLine_decomp]
    refine mem_splitNl_append c₀ _ h₀ ?_
    intro c hc
    simp only [List.mem_append, List.mem_cons] at hc
    rcases hc with h | h | h
    · exact balPrefix_no_nl today a.name hname c h
    · rw [h]; decide
    · rcases h with h | h | h
      · exact not_nl_of_not_ws (renderFixed_no_ws _ _ c h)
      · rw [h]; decide
      · exact not_nl_of_not_ws (hcur c h)
  · have hb : (' ' :: (a.formatAmount v ++ ' ' :: a.currency)).reverse.dropWhile
        pyWS ≠ [] := by
      refine @dropTrailing_ne_nil_of_last _
        (' ' :: (a.formatAmount v ++ ' ' :: cinit)) cl ?_ hclws
      rw [hcl]
      simp [List.append_assoc]
    rw [stripL_of_shape _ _ ?hd hb]
    · exact listStartsWith_append _ _
    case hd =>
      obtain ⟨ih, it, hiso⟩ := List.exists_cons_of_ne_nil (iso_ne_nil today)
      refine ⟨ih, it ++ ' ' :: 'b' :: 'a' :: 'l' :: 'a' :: 'n' :: 'c' :: 'e' :: ' '
          :: a.name, ?_, ?_⟩
      · rw [balPrefix, hiso]
        simp
      · exact iso_no_ws today ih (by rw [hiso]; simp)

theorem wmGet_set_self (w : Watermark) (k : List Char × List Char) (d : PyDate) :
    wmGet (wmSet w k d) k = some d := by
  simp [wmGet, wmSet, List.find?]

theorem appendBalanceLine_line (content : List Char) (today : PyDate)
    (a : ABAccount) (v : ℚ) :
    appendBalanceLine content (formatBalanceLine today a v)
      = content ++ formatBalanceLine today a v := by
  unfold appendBalanceLine
  rw [formatBalanceLine_decomp, if_pos (listEndsWith_append _ _)]
  simp

theorem processDue_single (env : ABEnv) (today : PyDate) (ds : List DateMatcher)
    (accounts : List ABAccount) (st : ABState)
    (hdue : ABEntry.isDue ⟨ds, accounts⟩ today = true) :
    processDue env today [⟨ds, accounts⟩] st = processAccounts env today accounts st := by
  simp [processDue, hdue]

theorem processAccount_skip_wm (env : ABEnv) (today : PyDate) (st : ABState)
    (a : ABAccount) (hwm : wmGet st.watermark (a.name, today.iso) = some today) :
    processAccount env today st a = st := by
  unfold processAccount
  rw [if_pos hwm]

theorem processAccount_skip_scan (env : ABEnv) (today : PyDate) (st : ABState)
    (a : ABAccount) (hwm : wmGet st.watermark (a.name, today.iso) ≠ some today)
    (hscan : hasExistingLine st.content today a.name = true) :
    processAccount env today st a
      = { st with watermark := wmSet st.watermark (a.name, today.iso) today } := by
  unfold processAccount
  rw [if_neg hwm, if_pos hscan]

theorem processAccount_ok (env : ABEnv) (today : PyDate) (st : ABState)
    (a : ABAccount) (v : ℚ)
    (hwm : wmGet st.watermark (a.name, today.iso) ≠ some today)
    (hscan : hasExistingLine st.content today a.name = false)
    (hres : resolveAmount env a = Except.ok v)
    (happ : env.appendFail (formatBalanceLine today a v) = none) :
    processAccount env today st a
      = { st with
          content := st.content ++ formatBalanceLine today a v
          watermark := wmSet st.watermark (a.name, today.iso) today
          additions := st.additions ++ [(a, v, formatBalanceLine today a v)] } := by
  unfold processAccount
  rw [if_neg hwm, if_neg (by simp [hscan])]
  simp only [hres, happ, appendBalanceLine_line st.content today a v]

theorem processAccount_err_fetch (env : ABEnv) (today : PyDate) (st : ABState)
    (a : ABAccount) (e : Nat)
    (hwm : wmGet st.watermark (a.name, today.iso) ≠ some today)
    (hscan : hasExistingLine st.content today a.name = false)
    (hres : resolveAmount env a = Except.error e) :
    processAccount env today st a = { st with errors := st.errors ++ [(a, e)] } := by
  unfold processAccount
  rw [if_neg hwm, if_neg (by simp [hscan])]
  simp only [hres]

theorem processAccount_err_append (env : ABEnv) (today : PyDate) (st : ABState)
    (a : ABAccount) (v : ℚ) (e : Nat)
    (hwm : wmGet st.watermark (a.name, today.iso) ≠ some today)
    (hscan : hasExistingLine st.content today a.name = false)
    (hres : resolveAmount env a = Except.ok v)
    (happ : env.appendFail (formatBalanceLine today a v) = some e) :
    processAccount env today st a = { st with errors := st.errors ++ [(a, e)] } := by
  unfold processAccount
  rw [if_neg hwm, if_neg (by simp [hscan])]
  simp only [hres, happ]

/-! ## C4: auto-balance idempotence -/

/-- Claim C4 as stated is false: with prior ledger content `"x"` (no trailing
newline), the first tick glues the balance line onto the existing line, the
per-line scan then cannot find it, and a second tick with an empty in-memory
watermark (as after a process restart) appends the line a second time. -/
theorem C4_counterexample :
    (processDue cexEnv cexToday [cexEntry]
        ⟨(processDue cexEnv cexToday [cexEntry]
            ⟨"x".toList, [], [], []⟩).content, [], [], []⟩).content
      ≠ (processDue cexEnv cexToday [cexEntry] ⟨"x".toList, [], [], []⟩).content := by
  decide

/-- Claim C4 (amended): for a configured account due today whose fetch and
append succeed, a tick from an empty watermark appends the balance line
exactly once; a second tick in the same process is a no-op (watermark skip),
and a second tick with an empty watermark (process restart) leaves the content
unchanged provided the ledger content before the first append was empty or
ended with a newline (scan skip). -/
theorem C4_idempotent (env : ABEnv) (today : PyDate) (ds : List DateMatcher)
    (a : ABAccount) (content₀ : List Char) (v : ℚ)
    (hdue : ABEntry.isDue ⟨ds, [a]⟩ today = true)
    (hres : resolveAmount env a = Except.ok v)
    (happ : env.appendFail (formatBalanceLine today a v) = none)
    (hname : ∀ c ∈ a.name, c ≠ '\n')
    (hcne : a.currency ≠ []) (hcur : ∀ c ∈ a.currency, pyWS c = false)
    (hnot : hasExistingLine content₀ today a.name = false)
    (h₀ : content₀ = [] ∨ ∃ c', content₀ = c' ++ ['\n']) :
    (processDue env today [⟨ds, [a]⟩] ⟨content₀, [], [], []⟩).content
        = content₀ ++ formatBalanceLine today a v
    ∧ (processDue env today [⟨ds, [a]⟩] ⟨content₀, [], [], []⟩).additions
        = [(a, v, formatBalanceLine today a v)]
    ∧ processDue env today [⟨ds, [a]⟩]
          (processDue env today [⟨ds, [a]⟩] ⟨content₀, [], [], []⟩)
        = processDue env today [⟨ds, [a]⟩] ⟨content₀, [], [], []⟩
    ∧ (processDue env today [⟨ds, [a]⟩]
          ⟨(processDue env today [⟨ds, [a]⟩] ⟨content₀, [], [], []⟩).content,
            [], [], []⟩).content
        = (processDue env today [⟨ds, [a]⟩] ⟨content₀, [], [], []⟩).content := by
  have hacc : processAccounts env today [a] ⟨content₀, [], [], []⟩
      = processAccount env today ⟨content₀, [], [], []⟩ a := by
    simp [processAccounts]
  have hrun1 : processDue env today [⟨ds, [a]⟩] ⟨content₀, [], [], []⟩
      = { content := content₀ ++ formatBalanceLine today a v,
          watermark := wmSet [] (a.name, today.iso) today,
          additions := [(a, v, formatBalanceLine today a v)],
          errors := [] } := by
    rw [processDue_single env today ds [a] _ hdue, hacc,
      processAccount_ok env today _ a v (by simp [wmGet]) hnot hres happ]
    rfl
  refine ⟨by rw [hrun1], by rw [hrun1], ?_, ?_⟩
  · rw [hrun1, processDue_single env today ds [a] _ hdue]
    have : processAccounts env today [a]
        ({ content := content₀ ++ formatBalanceLine today a v,
           watermark := wmSet [] (a.name, today.iso) today,
           additions := [(a, v, formatBalanceLine today a v)],
           errors := [] } : ABState)
        = processAccount env today
            { content := content₀ ++ formatBalanceLine today a v,
              watermark := wmSet [] (a.name, today.iso) today,
              additions := [(a, v, formatBalanceLine today a v)],
              errors := [] } a := by
      simp [processAccounts]
    rw [this, processAccount_skip_wm env today _ a (wmGet_set_self _ _ _)]
  · rw [hrun1, processDue_single env today ds [a] _ hdue]
    have hacc2 : processAccounts env today [a]
        ⟨content₀ ++ formatBalanceLine today a v, [], [], []⟩
        = processAccount env today
            ⟨content₀ ++ formatBalanceLine today a v, [], [], []⟩ a := by
      simp [processAccounts]
    rw [hacc2, processAccount_skip_scan env today _ a (by simp [wmGet])
      (hasExistingLine_append content₀ today a v h₀ hname hcne hcur)]

/-- Witness for C4 at a concrete configuration (ledger content ends with a
newline, static balance 5, due on day 1). -/
theorem C4_witness :
    (processDue cexEnv cexToday [⟨cexEntry.dates, [cexAccount]⟩]
        ⟨"x\n".toList, [], [], []⟩).content
      = "x\n".toList ++ formatBalanceLine cexToday cexAccount 5
    ∧ (processDue cexEnv cexToday [⟨cexEntry.dates, [cexAccount]⟩]
        ⟨"x\n".toList, [], [], []⟩).additions
      = [(cexAccount, 5, formatBalanceLine cexToday cexAccount 5)]
    ∧ processDue cexEnv cexToday [⟨cexEntry.dates, [cexAccount]⟩]
          (processDue cexEnv cexToday [⟨cexEntry.dates, [cexAccount]⟩]
            ⟨"x\n".toList, [], [], []⟩)
        = processDue cexEnv cexToday [⟨cexEntry.dates, [cexAccount]⟩]
            ⟨"x\n".toList, [], [], []⟩
    ∧ (processDue cexEnv cexToday [⟨cexEntry.dates, [cexAccount]⟩]
          ⟨(processDue cexEnv cexToday [⟨cexEntry.dates, [cexAccount]⟩]
              ⟨"x\n".toList, [], [], []⟩).content, [], [], []⟩).content
        = (processDue cexEnv cexToday [⟨cexEntry.dates, [cexAccount]⟩]
            ⟨"x\n".toList, [], [], []⟩).content :=
  C4_idempotent cexEnv cexToday cexEntry.dates cexAccount ("x\n".toList) 5
    (by decide) (by decide) rfl (by decide) (by decide) (by decide) (by decide)
    (Or.inr ⟨"x".toList, rfl⟩)

/-! ## C9: per-account error isolation -/

/-- Claim C9 (confirmed): within one tick, an account whose value fetch or
ledger append raises is recorded as an `(account, error)` pair in the error
list while the tick's state (content, watermark) is otherwise unchanged, so
the remaining due accounts are processed exactly as if they followed a
skipped account: one failing account never blocks the others. -/
theorem C9_error_isolation (env : ABEnv) (today : PyDate) (st : ABState)
    (a : ABAccount) (rest : List ABAccount)
    (hwm : wmGet st.watermark (a.name, today.iso) ≠ some today)
    (hscan : hasExistingLine st.content today a.name = false) :
    (∀ e, resolveAmount env a = Except.error e →
      processAccounts env today (a :: rest) st
        = processAccounts env today rest { st with errors := st.errors ++ [(a, e)] })
    ∧ (∀ v e, resolveAmount env a = Except.ok v →
        env.appendFail (formatBalanceLine today a v) = some e →
        processAccounts env today (a :: rest) st
          = processAccounts env today rest
              { st with errors := st.errors ++ [(a, e)] }) := by
  constructor
  · intro e hres
    show (a :: rest).foldl (processAccount env today) st = _
    rw [List.foldl_cons, processAccount_err_fetch env today st a e hwm hscan hres]
    rfl
  · intro v e hres happ
    show (a :: rest).foldl (processAccount env today) st = _
    rw [List.foldl_cons,
      processAccount_err_append env today st a v e hwm hscan hres happ]
    rfl

/-- Witness for C9 at a concrete failing fetcher. -/
theorem C9_witness :
    processAccounts c9Env cexToday [c9Account, cexAccount] ⟨[], [], [], []⟩
      = processAccounts c9Env cexToday [cexAccount]
          ⟨[], [], [], [(c9Account, 7)]⟩ :=
  (C9_error_isolation c9Env cexToday ⟨[], [], [], []⟩ c9Account [cexAccount]
    (by decide) (by decide)).1 7 rfl

end BeanBot
